import Mathlib

/-!
Verification development for the `ratify` signature-catalog tool.

Shallow embedding conventions:
* Paths (relative paths, canonical absolute paths, catalog keys) are modelled
  as `List Char`.  Rust `String` comparison (used by `BTreeMap<String, _>`)
  is lexicographic on UTF-8 bytes, which coincides with lexicographic order on
  code points, modelled by `ltChars` below.
* Digests (`Vec<u8>`) are `List Nat`, with byte bounds (`< 256`) stated as
  hypotheses where relevant.
* File contents are `List Char`.
* The catalog's `BTreeMap<String, Vec<u8>>` is a sorted association list
  `Entries`; `insertEntry` mirrors `BTreeMap::insert` (returns the previous
  binding), `removeEntry` mirrors `BTreeMap::remove`, `lookupE` mirrors
  `BTreeMap::get`.
-/

/-- Relative or canonical path, as its character sequence. -/
abbrev PathC := List Char

/-- Digest bytes (`Vec<u8>` in the source). -/
abbrev Digest := List Nat

/-- Lexicographic order on character lists, mirroring Rust `String` ordering
(byte-lexicographic on UTF-8, equivalently code-point lexicographic). -/
def ltChars : List Char → List Char → Bool
  | [], [] => false
  | [], _ :: _ => true
  | _ :: _, [] => false
  | a :: as, b :: bs => if a < b then true else if b < a then false else ltChars as bs

theorem ltChars_irrefl (a : List Char) : ltChars a a = false := by
  induction a with
  | nil => rfl
  | cons c rest ih => simp [ltChars, ih]

theorem ltChars_ne {a b : List Char} (h : ltChars a b = true) : a ≠ b := by
  intro heq
  subst heq
  rw [ltChars_irrefl] at h
  exact Bool.false_ne_true h

theorem ltChars_asymm {a b : List Char} (h : ltChars a b = true) :
    ltChars b a = false := by
  induction a generalizing b with
  | nil =>
    cases b with
    | nil => simp [ltChars] at h
    | cons c cs => simp [ltChars]
  | cons c cs ih =>
    cases b with
    | nil => simp [ltChars] at h
    | cons d ds =>
      by_cases hcd : c < d
      · have hdc : ¬ d < c := lt_asymm hcd
        simp [ltChars, hcd, hdc]
      · by_cases hdc : d < c
        · simp [ltChars, hcd, hdc] at h
        · simp only [ltChars, if_neg hcd, if_neg hdc] at h
          simp [ltChars, hcd, hdc, ih h]

theorem ltChars_trans {a b c : List Char} (hab : ltChars a b = true)
    (hbc : ltChars b c = true) : ltChars a c = true := by
  induction a generalizing b c with
  | nil =>
    cases c with
    | nil =>
      cases b with
      | nil => simp [ltChars] at hab
      | cons d ds => simp [ltChars] at hbc
    | cons e es => simp [ltChars]
  | cons x xs ih =>
    cases b with
    | nil => simp [ltChars] at hab
    | cons y ys =>
      cases c with
      | nil => simp [ltChars] at hbc
      | cons z zs =>
        by_cases hxy : x < y
        · by_cases hyz : y < z
          · have : x < z := lt_trans hxy hyz
            simp [ltChars, this]
          · by_cases hzy : z < y
            · simp [ltChars, hyz, hzy] at hbc
            · have hyz' : y = z := le_antisymm (not_lt.mp hzy) (not_lt.mp hyz)
              subst hyz'
              simp [ltChars, hxy]
        · by_cases hyx : y < x
          · simp [ltChars, hxy, hyx] at hab
          · have hxy' : x = y := le_antisymm (not_lt.mp hyx) (not_lt.mp hxy)
            subst hxy'
            simp only [ltChars, if_neg hxy, if_neg hyx] at hab
            by_cases hyz : x < z
            · simp [ltChars, hyz]
            · by_cases hzy : z < x
              · simp [ltChars, hyz, hzy] at hbc
              · simp only [ltChars, if_neg hyz, if_neg hzy] at hbc ⊢
                exact ih hab hbc

theorem ltChars_total {a b : List Char} (hne : a ≠ b)
    (hnlt : ltChars a b = false) : ltChars b a = true := by
  induction a generalizing b with
  | nil =>
    cases b with
    | nil => exact absurd rfl hne
    | cons c cs => simp [ltChars] at hnlt
  | cons x xs ih =>
    cases b with
    | nil => simp [ltChars]
    | cons y ys =>
      by_cases hxy : x < y
      · simp [ltChars, hxy] at hnlt
      · by_cases hyx : y < x
        · simp [ltChars, hyx]
        · have hxy' : x = y := le_antisymm (not_lt.mp hyx) (not_lt.mp hxy)
          subst hxy'
          simp only [ltChars, if_neg hxy, if_neg hyx] at hnlt ⊢
          have hne' : xs ≠ ys := by
            intro h; exact hne (by rw [h])
          exact ih hne' hnlt

/-- Catalog entry map (`BTreeMap<String, Vec<u8>>` in `catalog.rs`), as a
key-sorted association list. -/
abbrev Entries := List (PathC × Digest)

/-- Key lookup, mirroring `BTreeMap::get`. -/
def lookupE (k : PathC) : Entries → Option Digest
  | [] => none
  | (k', v') :: rest => if k = k' then some v' else lookupE k rest

/-- Insertion returning the previous binding, mirroring `BTreeMap::insert`.
On a key-sorted list this places the new pair at its sorted position and
replaces (returning) any existing binding of the key. -/
def insertEntry (k : PathC) (v : Digest) : Entries → Option Digest × Entries
  | [] => (none, [(k, v)])
  | (k', v') :: rest =>
    if k = k' then (some v', (k, v) :: rest)
    else if ltChars k k' then (none, (k, v) :: (k', v') :: rest)
    else
      let r := insertEntry k v rest
      (r.1, (k', v') :: r.2)

/-- `Catalog::update_entry` (catalog.rs:355-357): upsert, previous binding
discarded. -/
def updateEntry (m : Entries) (k : PathC) (v : Digest) : Entries :=
  (insertEntry k v m).2

/-- `Catalog::remove_entry` (catalog.rs:359-361), mirroring
`BTreeMap::remove`. -/
def removeEntry (k : PathC) : Entries → Entries
  | [] => []
  | (k', v') :: rest => if k = k' then rest else (k', v') :: removeEntry k rest

/-- Keys of the entry map, in map order. -/
def entryKeys (m : Entries) : List PathC := m.map Prod.fst

/-- Well-formedness of a `BTreeMap` state: keys strictly sorted. -/
def SortedKeys (m : Entries) : Prop :=
  List.Pairwise (fun a b => ltChars a.1 b.1 = true) m

theorem lookupE_insert_self (k : PathC) (v : Digest) (m : Entries) :
    lookupE k (insertEntry k v m).2 = some v := by
  induction m with
  | nil => simp [insertEntry, lookupE]
  | cons hd tl ih =>
    obtain ⟨k', v'⟩ := hd
    by_cases hk : k = k'
    · simp [insertEntry, hk, lookupE]
    · by_cases hlt : ltChars k k'
      · simp [insertEntry, hk, hlt, lookupE]
      · simp [insertEntry, hk, hlt, lookupE, ih]

theorem lookupE_insert_ne {k p : PathC} (hne : p ≠ k) (v : Digest) (m : Entries) :
    lookupE p (insertEntry k v m).2 = lookupE p m := by
  induction m with
  | nil => simp [insertEntry, lookupE, hne]
  | cons hd tl ih =>
    obtain ⟨k', v'⟩ := hd
    by_cases hk : k = k'
    · subst hk
      simp [insertEntry, lookupE, hne]
    · by_cases hlt : ltChars k k'
      · simp [insertEntry, hk, hlt, lookupE, hne]
      · by_cases hpk : p = k'
        · simp [insertEntry, hk, hlt, lookupE, hpk]
        · simp [insertEntry, hk, hlt, lookupE, hpk, ih]

theorem lookupE_none_of_not_mem {k : PathC} {m : Entries}
    (h : k ∉ entryKeys m) : lookupE k m = none := by
  induction m with
  | nil => rfl
  | cons hd tl ih =>
    obtain ⟨k', v'⟩ := hd
    simp only [entryKeys, List.map_cons, List.mem_cons] at h
    push_neg at h
    simp [lookupE, h.1, ih (by simpa [entryKeys] using h.2)]

theorem mem_keys_of_lookupE_isSome {k : PathC} {m : Entries}
    (h : (lookupE k m).isSome) : k ∈ entryKeys m := by
  induction m with
  | nil => simp [lookupE] at h
  | cons hd tl ih =>
    obtain ⟨k', v'⟩ := hd
    by_cases hk : k = k'
    · simp [entryKeys, hk]
    · simp only [lookupE, if_neg hk] at h
      have hm := ih h
      simp only [entryKeys, List.map_cons, List.mem_cons]
      right
      simpa [entryKeys] using hm

theorem insertEntry_fst_eq_lookupE {m : Entries} (hs : SortedKeys m)
    (k : PathC) (v : Digest) : (insertEntry k v m).1 = lookupE k m := by
  induction m with
  | nil => rfl
  | cons hd tl ih =>
    obtain ⟨k', v'⟩ := hd
    by_cases hk : k = k'
    · simp [insertEntry, hk, lookupE]
    · by_cases hlt : ltChars k k'
      · have hnotmem : k ∉ entryKeys tl := by
          intro hmem
          simp only [SortedKeys, List.pairwise_cons] at hs
          obtain ⟨f, _⟩ := hs
          simp only [entryKeys, List.mem_map] at hmem
          obtain ⟨pair, hpair, hfst⟩ := hmem
          have hk'lt := f pair hpair
          have : ltChars k pair.1 = true := ltChars_trans hlt hk'lt
          exact ltChars_ne this hfst.symm
        simp [insertEntry, hk, hlt, lookupE,
          (lookupE_none_of_not_mem hnotmem).symm]
      · simp only [SortedKeys, List.pairwise_cons] at hs
        simp [insertEntry, hk, hlt, lookupE, ih hs.2]


theorem entryKeys_insert_subset (k : PathC) (v : Digest) (m : Entries) :
    entryKeys (insertEntry k v m).2 ⊆ k :: entryKeys m := by
  induction m with
  | nil => simp [insertEntry, entryKeys]
  | cons hd tl ih =>
    obtain ⟨k', v'⟩ := hd
    by_cases hk : k = k'
    · simp only [insertEntry, if_pos hk]
      intro x hx
      simp only [entryKeys, List.map_cons, List.mem_cons] at hx ⊢
      tauto
    · by_cases hlt : ltChars k k'
      · simp only [insertEntry, if_neg hk, if_pos hlt]
        intro x hx
        simp only [entryKeys, List.map_cons, List.mem_cons] at hx ⊢
        tauto
      · simp only [insertEntry, if_neg hk, if_neg hlt]
        intro x hx
        simp only [entryKeys, List.map_cons, List.mem_cons] at hx ⊢
        rcases hx with hx | hx
        · tauto
        · have := ih hx
          simp only [entryKeys, List.mem_cons] at this
          tauto

theorem insertEntry_sorted {m : Entries} (hs : SortedKeys m)
    (k : PathC) (v : Digest) : SortedKeys (insertEntry k v m).2 := by
  induction m with
  | nil => simp [insertEntry, SortedKeys]
  | cons hd tl ih =>
    obtain ⟨k', v'⟩ := hd
    simp only [SortedKeys, List.pairwise_cons] at hs
    obtain ⟨hf, htl⟩ := hs
    by_cases hk : k = k'
    · subst hk
      simp only [insertEntry, if_pos rfl]
      exact List.Pairwise.cons hf htl
    · by_cases hlt : ltChars k k'
      · simp only [insertEntry, if_neg hk, if_pos hlt]
        refine List.Pairwise.cons ?_ (List.Pairwise.cons hf htl)
        intro pair hpair
        rcases List.mem_cons.mp hpair with heq | hmem
        · simp [heq, hlt]
        · exact ltChars_trans hlt (hf pair hmem)
      · simp only [insertEntry, if_neg hk, if_neg hlt]
        refine List.Pairwise.cons ?_ (ih htl)
        have hk'k : ltChars k' k = true := ltChars_total hk (by
          cases h : ltChars k k' with
          | false => rfl
          | true => exact absurd h hlt)
        intro pair hpair
        have hmem : pair.1 ∈ entryKeys (insertEntry k v tl).2 := by
          simp only [entryKeys, List.mem_map]
          exact ⟨pair, hpair, rfl⟩
        have := entryKeys_insert_subset k v tl hmem
        simp only [List.mem_cons, entryKeys, List.mem_map] at this
        rcases this with heq | ⟨q, hq, heq⟩
        · rw [heq]; exact hk'k
        · rw [← heq]; exact hf q hq

theorem removeEntry_sorted {m : Entries} (hs : SortedKeys m) (k : PathC) :
    SortedKeys (removeEntry k m) := by
  induction m with
  | nil => simp [removeEntry, SortedKeys]
  | cons hd tl ih =>
    obtain ⟨k', v'⟩ := hd
    simp only [SortedKeys, List.pairwise_cons] at hs
    obtain ⟨hf, htl⟩ := hs
    by_cases hk : k = k'
    · simp only [removeEntry, if_pos hk]
      exact htl
    · simp only [removeEntry, if_neg hk]
      refine List.Pairwise.cons ?_ (ih htl)
      intro pair hpair
      have hsub : removeEntry k tl ⊆ tl := by
        clear hf htl ih hpair
        induction tl with
        | nil => simp [removeEntry]
        | cons hd2 tl2 ih2 =>
          obtain ⟨k2, v2⟩ := hd2
          by_cases h2 : k = k2
          · simp only [removeEntry, if_pos h2]
            exact List.subset_cons_self _ _
          · simp only [removeEntry, if_neg h2]
            exact List.cons_subset_cons _ ih2
      exact hf pair (hsub hpair)

theorem removeEntry_not_mem {k : PathC} {m : Entries}
    (h : k ∉ entryKeys m) : removeEntry k m = m := by
  induction m with
  | nil => rfl
  | cons hd tl ih =>
    obtain ⟨k', v'⟩ := hd
    simp only [entryKeys, List.map_cons, List.mem_cons] at h
    push_neg at h
    simp [removeEntry, h.1, ih (by simpa [entryKeys] using h.2)]

theorem lookupE_remove_ne {k p : PathC} (hne : p ≠ k) (m : Entries) :
    lookupE p (removeEntry k m) = if (lookupE p m).isSome then lookupE p m else none := by
  induction m with
  | nil => simp [removeEntry, lookupE]
  | cons hd tl ih =>
    obtain ⟨k', v'⟩ := hd
    by_cases hk : k = k'
    · subst hk
      simp [removeEntry, lookupE, Ne.symm hne, hne]
      cases h : lookupE p tl <;> simp
    · by_cases hpk : p = k'
      · simp [removeEntry, hk, lookupE, hpk]
      · simp only [removeEntry, if_neg hk, lookupE, if_neg hpk]
        exact ih

/-- Lowercase hex digit for a nibble, as produced by `hex::encode`. -/
def hexDigitChar (n : Nat) : Char :=
  if n < 10 then Char.ofNat (48 + n) else Char.ofNat (87 + n)

/-- `hex::encode`: two lowercase hex digits per byte. -/
def hexEncode : Digest → List Char
  | [] => []
  | b :: rest => hexDigitChar (b / 16) :: hexDigitChar (b % 16) :: hexEncode rest

/-- Value of one hex digit, accepting both cases as `hex::decode` does. -/
def hexDigitVal (c : Char) : Option Nat :=
  if 48 ≤ c.toNat ∧ c.toNat ≤ 57 then some (c.toNat - 48)
  else if 97 ≤ c.toNat ∧ c.toNat ≤ 102 then some (c.toNat - 87)
  else if 65 ≤ c.toNat ∧ c.toNat ≤ 70 then some (c.toNat - 55)
  else none

/-- `hex::decode`: fails on odd length or a non-hex character. -/
def hexDecode : List Char → Option Digest
  | [] => some []
  | [_] => none
  | h :: l :: rest =>
    match hexDigitVal h, hexDigitVal l, hexDecode rest with
    | some hv, some lv, some tail => some ((16 * hv + lv) :: tail)
    | _, _, _ => none

theorem hexDigitVal_hexDigitChar : ∀ n, n < 16 → hexDigitVal (hexDigitChar n) = some n := by
  decide

theorem hexDigitChar_ne_space : ∀ n, n < 16 → hexDigitChar n ≠ ' ' := by
  decide

theorem hexDigitChar_ne_newline : ∀ n, n < 16 → hexDigitChar n ≠ '\n' := by
  decide

theorem hexDecode_hexEncode {d : Digest} (h : ∀ b ∈ d, b < 256) :
    hexDecode (hexEncode d) = some d := by
  induction d with
  | nil => rfl
  | cons b rest ih =>
    have hb : b < 256 := h b (List.mem_cons_self b rest)
    have hhi : b / 16 < 16 := Nat.div_lt_of_lt_mul (by omega)
    have hlo : b % 16 < 16 := Nat.mod_lt _ (by omega)
    have hrest := ih (fun x hx => h x (List.mem_cons_of_mem _ hx))
    simp only [hexEncode, hexDecode, hexDigitVal_hexDigitChar _ hhi,
      hexDigitVal_hexDigitChar _ hlo, hrest]
    congr 1
    congr 1
    omega

theorem mem_hexEncode_not_space {d : Digest} (h : ∀ b ∈ d, b < 256) :
    ∀ c ∈ hexEncode d, c ≠ ' ' := by
  induction d with
  | nil => simp [hexEncode]
  | cons b rest ih =>
    have hb : b < 256 := h b (List.mem_cons_self b rest)
    have hhi : b / 16 < 16 := Nat.div_lt_of_lt_mul (by omega)
    have hlo : b % 16 < 16 := Nat.mod_lt _ (by omega)
    intro c hc
    simp only [hexEncode, List.mem_cons] at hc
    rcases hc with rfl | rfl | hc
    · exact hexDigitChar_ne_space _ hhi
    · exact hexDigitChar_ne_space _ hlo
    · exact ih (fun x hx => h x (List.mem_cons_of_mem _ hx)) c hc

theorem mem_hexEncode_not_newline {d : Digest} (h : ∀ b ∈ d, b < 256) :
    ∀ c ∈ hexEncode d, c ≠ '\n' := by
  induction d with
  | nil => simp [hexEncode]
  | cons b rest ih =>
    have hb : b < 256 := h b (List.mem_cons_self b rest)
    have hhi : b / 16 < 16 := Nat.div_lt_of_lt_mul (by omega)
    have hlo : b % 16 < 16 := Nat.mod_lt _ (by omega)
    intro c hc
    simp only [hexEncode, List.mem_cons] at hc
    rcases hc with rfl | rfl | hc
    · exact hexDigitChar_ne_newline _ hhi
    · exact hexDigitChar_ne_newline _ hlo
    · exact ih (fun x hx => h x (List.mem_cons_of_mem _ hx)) c hc

/-- One manifest line as written by `Catalog::write_signature_file`
(catalog.rs:293-296): `writeln!(.., "{encoded} *{subpath}")`, including the
trailing newline. -/
def entryLineChars (f : PathC × Digest) : List Char :=
  hexEncode f.2 ++ ' ' :: '*' :: f.1 ++ ['\n']

/-- Byte stream written by `Catalog::write_signature_file` for the whole entry
map (in map iteration order, i.e. sorted path order). -/
def serializeEntries (l : Entries) : List Char :=
  l.flatMap entryLineChars

/-- Splitting a byte stream at newline bytes, as `BufRead::lines` does before
carriage-return stripping: a trailing newline produces no empty final line. -/
def splitNewline : List Char → List (List Char)
  | [] => []
  | c :: cs =>
    if c = '\n' then [] :: splitNewline cs
    else
      match splitNewline cs with
      | [] => [[c]]
      | l :: ls => (c :: l) :: ls

/-- Trailing carriage-return stripping performed by `BufRead::lines`. -/
def stripCR (l : List Char) : List Char :=
  if l.getLast? = some '\r' then l.dropLast else l

/-- `str::split_once(" *")`: split at the first occurrence of the two-character
separator, or `none` when absent. -/
def splitOnceStar : List Char → Option (List Char × List Char)
  | [] => none
  | [_] => none
  | c :: d :: rest =>
    if c = ' ' ∧ d = '*' then some ([], rest)
    else (splitOnceStar (d :: rest)).map (fun p => (c :: p.1, p.2))

/-- Load-time failures of `Directory::load` (catalog.rs:79-95): a line without
the ` *` separator, a hash that fails `hex::decode`, or a repeated path. -/
inductive LoadError
  | malformedLine (lineno : Nat)
  | invalidHash (lineno : Nat)
  | duplicateEntry (path : PathC)
deriving DecidableEq, Repr

/-- The lines of the manifest with their 1-based line numbers
(`file.lines().enumerate().map(|(lineno, l)| (lineno + 1, l))`). -/
def numberedLines (file : List Char) : List (Nat × List Char) :=
  ((splitNewline file).map stripCR).enum.map (fun p => (p.1 + 1, p.2))

/-- Parsing loop of `Directory::load` over the numbered lines, accumulating
the entry map.  On each line: split at ` *` (else a syntax error naming the
line), hex-decode the digest (else an invalid-hash error naming the line),
insert, and fail with a duplicate-entry error if a previous binding existed. -/
def loadEntriesAux : List (Nat × List Char) → Entries → Except LoadError Entries
  | [], acc => .ok acc
  | (n, l) :: rest, acc =>
    match splitOnceStar l with
    | none => .error (.malformedLine n)
    | some (hashPart, pathPart) =>
      match hexDecode hashPart with
      | none => .error (.invalidHash n)
      | some digest =>
        let r := insertEntry pathPart digest acc
        match r.1 with
        | some _ => .error (.duplicateEntry pathPart)
        | none => loadEntriesAux rest r.2

/-- `Directory::load` restricted to its parsing core: file contents in, entry
map (or load error) out. -/
def loadEntries (file : List Char) : Except LoadError Entries :=
  loadEntriesAux (numberedLines file) []

theorem splitNewline_append_newline {a : List Char} (h : '\n' ∉ a) (t : List Char) :
    splitNewline (a ++ '\n' :: t) = a :: splitNewline t := by
  induction a with
  | nil => simp [splitNewline]
  | cons c cs ih =>
    have hc : c ≠ '\n' := by
      intro hh; exact h (by simp [hh])
    have hcs : '\n' ∉ cs := fun hh => h (List.mem_cons_of_mem _ hh)
    have ih' := ih hcs
    show splitNewline (c :: (cs ++ '\n' :: t)) = (c :: cs) :: splitNewline t
    rw [splitNewline, if_neg hc, ih']

theorem splitOnceStar_of_no_space {a : List Char} (h : ∀ c ∈ a, c ≠ ' ')
    (b : List Char) : splitOnceStar (a ++ ' ' :: '*' :: b) = some (a, b) := by
  induction a with
  | nil => simp [splitOnceStar]
  | cons c cs ih =>
    have hc : c ≠ ' ' := h c (List.mem_cons_self c cs)
    have hcs : ∀ x ∈ cs, x ≠ ' ' := fun x hx => h x (List.mem_cons_of_mem _ hx)
    have ih' := ih hcs
    cases cs with
    | nil =>
      show splitOnceStar (c :: ' ' :: '*' :: b) = some ([c], b)
      rw [splitOnceStar, if_neg (by simp [hc])]
      rw [show splitOnceStar (' ' :: '*' :: b) = some ([], b) by
        rw [splitOnceStar, if_pos ⟨rfl, rfl⟩]]
      rfl
    | cons x xs =>
      show splitOnceStar (c :: x :: (xs ++ ' ' :: '*' :: b)) = some (c :: x :: xs, b)
      rw [splitOnceStar, if_neg (by simp [hc])]
      rw [show x :: (xs ++ ' ' :: '*' :: b) = (x :: xs) ++ ' ' :: '*' :: b from rfl, ih']
      rfl

theorem getLast_append_cons (a : List Char) (c : Char) (b : List Char) :
    (a ++ c :: b).getLast? = (c :: b).getLast? := by
  induction a with
  | nil => rfl
  | cons x xs ih =>
    show (x :: (xs ++ c :: b)).getLast? = (c :: b).getLast?
    rw [← ih]
    cases hxs : xs ++ c :: b with
    | nil => exact absurd hxs (by simp)
    | cons y ys => rw [List.getLast?_cons_cons]

theorem stripCR_entry_line {p : PathC} (hp : p.getLast? ≠ some '\r')
    (d : Digest) : stripCR (hexEncode d ++ ' ' :: '*' :: p) = hexEncode d ++ ' ' :: '*' :: p := by
  unfold stripCR
  rw [getLast_append_cons]
  cases p with
  | nil => simp
  | cons q qs =>
    rw [List.getLast?_cons_cons]
    simp only [List.getLast?_cons] at hp ⊢
    simp [hp]

theorem insertEntry_append_of_all_lt {acc : Entries} {k : PathC}
    (h : ∀ g ∈ acc, ltChars g.1 k = true) (v : Digest) :
    insertEntry k v acc = (none, acc ++ [(k, v)]) := by
  induction acc with
  | nil => rfl
  | cons hd tl ih =>
    obtain ⟨k', v'⟩ := hd
    have hlt : ltChars k' k = true := h (k', v') (List.mem_cons_self _ _)
    have hne : k ≠ k' := fun he => ltChars_ne hlt he.symm
    have hnlt : ltChars k k' = false := ltChars_asymm hlt
    have htl : ∀ g ∈ tl, ltChars g.1 k = true :=
      fun g hg => h g (List.mem_cons_of_mem _ hg)
    simp [insertEntry, hne, hnlt, ih htl]

theorem mem_entry_line_content {f : PathC × Digest} (hpath : '\n' ∉ f.1)
    (hbytes : ∀ b ∈ f.2, b < 256) :
    '\n' ∉ hexEncode f.2 ++ ' ' :: '*' :: f.1 := by
  intro hmem
  rcases List.mem_append.mp hmem with hmem | hmem
  · exact mem_hexEncode_not_newline hbytes _ hmem rfl
  · rcases List.mem_cons.mp hmem with heq | hmem
    · exact absurd heq (by decide)
    · rcases List.mem_cons.mp hmem with heq | hmem
      · exact absurd heq (by decide)
      · exact hpath hmem

theorem splitNewline_serialize {l : Entries}
    (hpath : ∀ f ∈ l, '\n' ∉ f.1)
    (hbytes : ∀ f ∈ l, ∀ b ∈ f.2, b < 256) :
    splitNewline (serializeEntries l) =
      l.map (fun f => hexEncode f.2 ++ ' ' :: '*' :: f.1) := by
  induction l with
  | nil => rfl
  | cons f rest ih =>
    have hsplit : serializeEntries (f :: rest) =
        (hexEncode f.2 ++ ' ' :: '*' :: f.1) ++ '\n' :: serializeEntries rest := by
      simp [serializeEntries, entryLineChars, List.append_assoc]
    rw [hsplit,
      splitNewline_append_newline
        (mem_entry_line_content (hpath f (List.mem_cons_self _ _))
          (hbytes f (List.mem_cons_self _ _))),
      ih (fun g hg => hpath g (List.mem_cons_of_mem _ hg))
        (fun g hg => hbytes g (List.mem_cons_of_mem _ hg))]
    rfl

theorem loadEntriesAux_of_lines :
    ∀ (nl : List (Nat × List Char)) (l acc : Entries),
    nl.map Prod.snd = l.map (fun f => hexEncode f.2 ++ ' ' :: '*' :: f.1) →
    (∀ f ∈ l, ∀ b ∈ f.2, b < 256) →
    List.Pairwise (fun a b => ltChars a.1 b.1 = true) (acc ++ l) →
    loadEntriesAux nl acc = .ok (acc ++ l) := by
  intro nl
  induction nl with
  | nil =>
    intro l acc hmap _ _
    have : l = [] := by
      cases l with
      | nil => rfl
      | cons f rest => simp at hmap
    subst this
    simp [loadEntriesAux]
  | cons hd tl ih =>
    intro l acc hmap hbytes hsorted
    obtain ⟨n, s⟩ := hd
    cases l with
    | nil => simp at hmap
    | cons f rest =>
      simp only [List.map_cons, List.cons.injEq] at hmap
      obtain ⟨hline, hrest⟩ := hmap
      have hb : ∀ b ∈ f.2, b < 256 := hbytes f (List.mem_cons_self _ _)
      have hsep : splitOnceStar s = some (hexEncode f.2, f.1) := by
        rw [hline]
        exact splitOnceStar_of_no_space (mem_hexEncode_not_space hb) f.1
      have hacclt : ∀ g ∈ acc, ltChars g.1 f.1 = true := by
        intro g hg
        have := (List.pairwise_append.mp hsorted).2.2 g hg f (List.mem_cons_self _ _)
        exact this
      have hins := insertEntry_append_of_all_lt hacclt f.2
      have hsorted' :
          List.Pairwise (fun a b => ltChars a.1 b.1 = true) ((acc ++ [f]) ++ rest) := by
        rw [List.append_assoc]
        simpa using hsorted
      have hres := ih rest (acc ++ [f]) hrest
        (fun g hg => hbytes g (List.mem_cons_of_mem _ hg)) hsorted'
      simp only [loadEntriesAux, hsep, hexDecode_hexEncode hb, hins]
      rw [hres]
      simp

theorem enumFrom_map_snd {α : Type} : ∀ (n : Nat) (l : List α),
    (List.enumFrom n l).map Prod.snd = l := by
  intro n l
  induction l generalizing n with
  | nil => rfl
  | cons x xs ih => simp [List.enumFrom, ih]

theorem numbered_map_snd {α : Type} (xs : List α) :
    (xs.enum.map (fun p => (p.1 + 1, p.2))).map Prod.snd = xs := by
  rw [List.map_map]
  have : (Prod.snd ∘ fun p : Nat × α => (p.1 + 1, p.2)) = Prod.snd := by
    funext p; rfl
  rw [this]
  exact enumFrom_map_snd 0 xs

/-- Round-trip of the parsing core against the serializer, for any well-formed
entry map whose paths contain no newline and do not end with a carriage
return, and whose digests are byte strings. -/
theorem loadEntries_serializeEntries {l : Entries} (hs : SortedKeys l)
    (hpath : ∀ f ∈ l, '\n' ∉ f.1 ∧ f.1.getLast? ≠ some '\r')
    (hbytes : ∀ f ∈ l, ∀ b ∈ f.2, b < 256) :
    loadEntries (serializeEntries l) = .ok l := by
  unfold loadEntries numberedLines
  rw [splitNewline_serialize (fun f hf => (hpath f hf).1) hbytes]
  have hstrip : (l.map (fun f => hexEncode f.2 ++ ' ' :: '*' :: f.1)).map stripCR =
      l.map (fun f => hexEncode f.2 ++ ' ' :: '*' :: f.1) := by
    rw [List.map_map]
    apply List.map_congr_left
    intro f hf
    exact stripCR_entry_line (hpath f hf).2 f.2
  rw [hstrip]
  have := loadEntriesAux_of_lines
    ((l.map (fun f => hexEncode f.2 ++ ' ' :: '*' :: f.1)).enum.map
      (fun p => (p.1 + 1, p.2)))
    l [] (numbered_map_snd _) hbytes (by simpa using hs)
  simpa using this

/-- Write-time failures of `Catalog::write_signature_file`: with
`create_new(true)` the open refuses an existing file; with
`create_new(false)` and `write(true)` but no `create(true)` the open fails
with a not-found error when the file does not exist. -/
inductive WriteError
  | alreadyExists
  | notFound
deriving DecidableEq, Repr

/-- `Catalog::write_signature_file` (catalog.rs:280-299).  The file is opened
with `create_new(!allow_existing)`, `write(true)`, `truncate(false)`.  With
`allow_existing = false` the open creates the (necessarily fresh) file and
the serialized entry lines become its contents; with `allow_existing = true`
the open requires the file to exist (no `create(true)` is set), failing with
not-found otherwise, and the lines are written from offset zero, so the old
bytes beyond the written length survive. -/
def write_signature_file (allow_existing : Bool) (entries : Entries)
    (existing : Option (List Char)) : Except WriteError (List Char) :=
  match existing with
  | none =>
    if allow_existing then .error .notFound
    else .ok (serializeEntries entries)
  | some old =>
    if allow_existing then
      .ok (serializeEntries entries ++ old.drop (serializeEntries entries).length)
    else .error .alreadyExists

/-- Per-entry verification status (`EntryStatus` in reporting.rs).
`VerificationError` is the mismatch status (short name `FAIL`). -/
inductive EntryStatus
  | Ok
  | VerificationError
  | Missing
  | Unknown
deriving DecidableEq, Repr

/-- One line of a verification report (`ReportEntry` in reporting.rs). -/
structure ReportEntry where
  path : PathC
  processed_size : Nat
  status : EntryStatus
deriving DecidableEq, Repr

/-- Outcome of accessing a file on disk: readable contents, a not-found
error, or any other I/O error. -/
inductive FileAccess
  | found (contents : List Nat)
  | notFound
  | ioError
deriving DecidableEq, Repr

/-- The live filesystem, as a map from path to access outcome. -/
abbrev FileSys := PathC → FileAccess

/-- Failure classes of `Algorithm::hash_file` relevant to the callers:
`std::io::ErrorKind::NotFound`, or any other I/O error. -/
inductive HashErr
  | notFound
  | other
deriving DecidableEq, Repr

/-- `Algorithm::hash_file` (algo.rs:68-75): open the file (propagating open
errors), stream it through the hash state, return (bytes read, digest).
The digest function itself is a parameter of the embedding. -/
def hashFile (hashFn : List Nat → Digest) (fs : FileSys) (p : PathC) :
    Except HashErr (Nat × Digest) :=
  match fs p with
  | .found c => .ok (c.length, hashFn c)
  | .notFound => .error .notFound
  | .ioError => .error .other

/-- A catalog entry prepared for verification (`Entry` in catalog.rs:307-310);
`Catalog::into_iter` builds one per map entry, with the entry's stored digest
and its on-disk path. -/
structure Entry where
  hash : Digest
  path : PathC
deriving DecidableEq, Repr

/-- `Entry::verify` (catalog.rs:313-343): re-hash the live file; a not-found
failure is recovered as a `Missing` report entry with zero processed size,
any other failure is propagated; otherwise the computed digest is compared
with the stored one. -/
def Entry.verify (hashFn : List Nat → Digest) (fs : FileSys) (e : Entry) :
    Except HashErr ReportEntry :=
  match hashFile hashFn fs e.path with
  | .error .notFound => .ok ⟨e.path, 0, .Missing⟩
  | .error err => .error err
  | .ok (size, h) =>
    .ok ⟨e.path, size, if h = e.hash then .Ok else .VerificationError⟩

/-- `Catalog::into_iter` (catalog.rs:367-374): one verification `Entry` per
map entry, in map order (paths are kept in the common namespace of the
embedding). -/
def catalogEntriesList (m : Entries) : List Entry :=
  m.map (fun f => ⟨f.2, f.1⟩)

/-- The hashing half of `load_and_verify_catalog` (main.rs:164-171):
`collect::<anyhow::Result<VerificationReport>>()` over the per-entry verify
results, stopping at the first propagated error. -/
def verificationPass (hashFn : List Nat → Digest) (fs : FileSys) :
    List Entry → Except HashErr (List ReportEntry)
  | [] => .ok []
  | e :: rest =>
    match Entry.verify hashFn fs e with
    | .error err => .error err
    | .ok r =>
      match verificationPass hashFn fs rest with
      | .error err => .error err
      | .ok rs => .ok (r :: rs)

/-- `VerificationReport::update_unknown` (reporting.rs:226-238): every live
path not covered by a report entry is appended as an `Unknown` entry with
zero processed size. -/
def updateUnknown (report : List ReportEntry) (allPaths : List PathC) :
    List ReportEntry :=
  let remaining := allPaths.filter (fun p => ¬ report.any (fun e => e.path = p))
  report ++ remaining.map (fun p => ⟨p, 0, .Unknown⟩)

/-- `load_and_verify_catalog` (main.rs:140-183) reduced to its report
computation: verify every catalog entry, then append Unknown entries for the
live paths that remain after removing the signature-file path and the root
path. -/
def loadAndVerifyReport (hashFn : List Nat → Digest) (fs : FileSys)
    (catalog : Entries) (allPaths : List PathC) (sigPath rootPath : PathC) :
    Except HashErr (List ReportEntry) :=
  match verificationPass hashFn fs (catalogEntriesList catalog) with
  | .error err => .error err
  | .ok rep =>
    .ok (updateUnknown rep ((allPaths.filter (· ≠ sigPath)).filter (· ≠ rootPath)))

/-- Report-level process outcomes (`Error` in errors.rs). -/
inductive RErr
  | FailedEntriesFound
  | MissingEntriesFound
  | UnknownEntriesFound
deriving DecidableEq, Repr

/-- The scanning loop of `VerificationReport::result` (reporting.rs:244-268):
bail out at the first mismatch, otherwise remember whether missing or unknown
entries were seen. -/
def resultLoop : List ReportEntry → Bool → Bool → Except RErr Unit
  | [], has_missing, has_unknown =>
    if has_missing then .error .MissingEntriesFound
    else if has_unknown then .error .UnknownEntriesFound
    else .ok ()
  | e :: rest, has_missing, has_unknown =>
    match e.status with
    | .VerificationError => .error .FailedEntriesFound
    | .Missing => resultLoop rest true has_unknown
    | .Unknown => resultLoop rest has_missing true
    | .Ok => resultLoop rest has_missing has_unknown

/-- `VerificationReport::result`. -/
def reportResult (entries : List ReportEntry) : Except RErr Unit :=
  resultLoop entries false false

/-- Files yielded by the directory walk (directories already filtered out by
`filter_ok(|entry| !entry.path().is_dir())`): relative path and contents. -/
abbrev WalkFiles := List (PathC × List Nat)

/-- The filter chain of `Catalog::populate_with_progress`
(catalog.rs:194-222): drop the signature file, then drop every path already
present in the pre-pass snapshot of the entry map. -/
def populateNewItems (sigPath : PathC) (walkFiles : WalkFiles) (old : Entries) :
    WalkFiles :=
  (walkFiles.filter (fun f => decide (f.1 ≠ sigPath))).filter
    (fun f => (lookupE f.1 old).isNone)

/-- `Catalog::populate_with_progress` (catalog.rs:187-278), sequentialized:
hash every new item, collect the results into a fresh map (`new_entries`),
then either swap it in (when the prior map is empty) or extend the prior map
with it.  The parallel pipeline delivers the same result set in a
nondeterministic order; since all inserted keys are distinct the final map
does not depend on that order, and the embedding folds in discovery order. -/
def populateEntries (hashFn : List Nat → Digest) (sigPath : PathC)
    (walkFiles : WalkFiles) (old : Entries) : Entries :=
  let newList := (populateNewItems sigPath walkFiles old).map
    (fun f => (f.1, hashFn f.2))
  let newMap := newList.foldl (fun acc f => updateEntry acc f.1 f.2) []
  if old.isEmpty then newMap
  else newMap.foldl (fun acc f => updateEntry acc f.1 f.2) old

theorem lookupE_foldlUpdate_of_ne {p : PathC} :
    ∀ (l : List (PathC × Digest)) (m : Entries), (∀ f ∈ l, f.1 ≠ p) →
    lookupE p (l.foldl (fun acc f => updateEntry acc f.1 f.2) m) = lookupE p m := by
  intro l
  induction l with
  | nil => intro m _; rfl
  | cons f rest ih =>
    intro m h
    have hf : f.1 ≠ p := h f (List.mem_cons_self _ _)
    rw [List.foldl_cons, ih _ (fun g hg => h g (List.mem_cons_of_mem _ hg))]
    exact lookupE_insert_ne (fun he => hf he.symm) f.2 m

theorem lookupE_foldlUpdate_isSome_preserve {p : PathC} :
    ∀ (l : List (PathC × Digest)) (m : Entries), (lookupE p m).isSome →
    (lookupE p (l.foldl (fun acc f => updateEntry acc f.1 f.2) m)).isSome := by
  intro l
  induction l with
  | nil => intro m h; exact h
  | cons f rest ih =>
    intro m h
    rw [List.foldl_cons]
    apply ih
    by_cases hp : p = f.1
    · subst hp
      rw [show updateEntry m f.1 f.2 = (insertEntry f.1 f.2 m).2 from rfl,
        lookupE_insert_self]
      rfl
    · rw [show updateEntry m f.1 f.2 = (insertEntry f.1 f.2 m).2 from rfl,
        lookupE_insert_ne hp]
      exact h

theorem lookupE_foldlUpdate_isSome_of_mem {p : PathC} :
    ∀ (l : List (PathC × Digest)) (m : Entries), p ∈ l.map Prod.fst →
    (lookupE p (l.foldl (fun acc f => updateEntry acc f.1 f.2) m)).isSome := by
  intro l
  induction l with
  | nil => intro m h; simp at h
  | cons f rest ih =>
    intro m h
    rw [List.foldl_cons]
    rw [List.map_cons, List.mem_cons] at h
    rcases h with heq | hmem
    · apply lookupE_foldlUpdate_isSome_preserve
      rw [heq, show updateEntry m f.1 f.2 = (insertEntry f.1 f.2 m).2 from rfl,
        lookupE_insert_self]
      rfl
    · exact ih _ hmem

/-- Operator choice at the interactive reconciliation prompt (`UpdateAction`
in main.rs:254-260; any other key maps to `Skip` in `read_user_choice`). -/
inductive UpdateAction
  | Skip
  | Update
  | UpdateSubdirectory
  | UpdateAll
deriving DecidableEq, Repr

/-- Characters of the parent directory of a path: everything before the last
separator. -/
def dirname (p : PathC) : PathC :=
  (((p.reverse).dropWhile (fun c => decide (c ≠ '/'))).drop 1).reverse

/-- `Path::parent` as used on the report paths (main.rs:406): the canonical
absolute paths handled there always contain a separator. -/
def parentDir (p : PathC) : Option PathC :=
  if '/' ∈ p then some (dirname p) else none

/-- `HashSet::insert` on a set modelled as a duplicate-free list. -/
def insertSet (x : PathC) (s : List PathC) : List PathC :=
  if x ∈ s then s else s ++ [x]

/-- Folded state of the interactive decision loop of `update_catalog`
(main.rs:388-465). -/
structure DecisionState where
  filesToUpdate : List PathC
  updateAll : Bool
  processedDirs : List PathC
  promptCount : Nat
deriving DecidableEq, Repr

/-- The dead `skip_all` flag of main.rs:390 (declared `false`, never set). -/
def skipAllFlag : Bool := false

/-- The check of main.rs:406-411: the entry's parent directory, when it has
one, was already covered by an earlier `UpdateSubdirectory` decision. -/
def dirAlreadyProcessed (processedDirs : List PathC) (p : PathC) : Bool :=
  match parentDir p with
  | some d => decide (d ∈ processedDirs)
  | none => false

/-- Retroactive same-directory insertion performed by `UpdateSubdirectory`
(main.rs:450-458): every non-Ok report entry sharing the chosen entry's
parent directory joins the update set. -/
def addSameDir (report : List ReportEntry) (dir : Option PathC)
    (files : List PathC) : List PathC :=
  report.foldl
    (fun fs oe =>
      if oe.status = .Ok then fs
      else if dir = parentDir oe.path then insertSet oe.path fs
      else fs)
    files

/-- The interactive decision loop of `update_catalog` (main.rs:392-465),
with the operator's keypresses supplied as a stream of actions indexed by
prompt number. -/
def decisionLoop (report : List ReportEntry) (choose : Nat → UpdateAction) :
    List ReportEntry → DecisionState → DecisionState
  | [], st => st
  | e :: rest, st =>
    if e.status = .Ok then decisionLoop report choose rest st
    else if skipAllFlag then decisionLoop report choose rest st
    else if st.updateAll then
      decisionLoop report choose rest
        { st with filesToUpdate := insertSet e.path st.filesToUpdate }
    else if dirAlreadyProcessed st.processedDirs e.path then
      decisionLoop report choose rest
        { st with filesToUpdate := insertSet e.path st.filesToUpdate }
    else
      match choose st.promptCount with
      | .Skip => decisionLoop report choose rest
          { st with promptCount := st.promptCount + 1 }
      | .Update => decisionLoop report choose rest
          { st with filesToUpdate := insertSet e.path st.filesToUpdate,
                    promptCount := st.promptCount + 1 }
      | .UpdateSubdirectory =>
        let files1 := insertSet e.path st.filesToUpdate
        let dirs1 := (parentDir e.path).elim st.processedDirs
          (fun d => insertSet d st.processedDirs)
        let files2 := addSameDir report (parentDir e.path) files1
        decisionLoop report choose rest
          { st with filesToUpdate := files2, processedDirs := dirs1,
                    promptCount := st.promptCount + 1 }
      | .UpdateAll => decisionLoop report choose rest
          { st with filesToUpdate := insertSet e.path st.filesToUpdate,
                    updateAll := true,
                    promptCount := st.promptCount + 1 }

/-- Post-loop sweep of main.rs:467-473: with the global flag set, every
non-Ok entry joins the update set. -/
def addAllNonOk (report : List ReportEntry) (files : List PathC) : List PathC :=
  report.foldl
    (fun fs e => if e.status = .Ok then fs else insertSet e.path fs) files

/-- The complete `files_to_update` computation of the interactive branch of
`update_catalog` (main.rs:387-474). -/
def filesToUpdateInteractive (report : List ReportEntry)
    (choose : Nat → UpdateAction) : List PathC :=
  let st := decisionLoop report choose report ⟨[], false, [], 0⟩
  if st.updateAll then addAllNonOk report st.filesToUpdate else st.filesToUpdate

/-- The update-application loop of `update_catalog` (main.rs:492-510) after
final confirmation: for each chosen path, re-hash and upsert it if the file
still exists (propagating hash failures), otherwise remove its entry.  The
`HashSet` iteration order is arbitrary in the source; the touched keys are
distinct, so the resulting map does not depend on it. -/
def applyUpdates (hashFn : List Nat → Digest) (fs : FileSys) :
    List PathC → Entries → Except HashErr Entries
  | [], catalog => .ok catalog
  | p :: rest, catalog =>
    match fs p with
    | .found c => applyUpdates hashFn fs rest (updateEntry catalog p (hashFn c))
    | .notFound => applyUpdates hashFn fs rest (removeEntry p catalog)
    | .ioError => .error .other

/-- Abstract state of one `for_each_with_discovery_callback` run
(parallel.rs:14-62): how many items the producer has pulled from the input
iterator (and sent), how many sit in the entries channel, how many workers
are inside the (blocking) handler, whether the external signal the handler
waits on has been raised, and how many handler invocations have finished. -/
structure PipeState where
  produced : Nat
  queued : Nat
  handling : Nat
  signaled : Bool
  completed : Nat
deriving DecidableEq, Repr

/-- Interleaving semantics of the pipeline for `M` input items and `W`
workers, for the backpressure scenario in which the handler blocks until an
external signal.  The entries channel is created with
`crossbeam_channel::unbounded()` (parallel.rs:25), so the producer's `send`
succeeds regardless of the queue length: the `produce` step carries no
capacity guard. -/
inductive PipeStep (M W : Nat) : PipeState → PipeState → Prop
  | produce (s : PipeState) : s.produced < M →
      PipeStep M W s
        { s with produced := s.produced + 1, queued := s.queued + 1 }
  | startHandle (s : PipeState) : 0 < s.queued → s.handling < W →
      PipeStep M W s
        { s with queued := s.queued - 1, handling := s.handling + 1 }
  | signal (s : PipeState) :
      PipeStep M W s { s with signaled := true }
  | finishHandle (s : PipeState) : s.signaled = true → 0 < s.handling →
      PipeStep M W s
        { s with handling := s.handling - 1, completed := s.completed + 1 }

/-- Initial pipeline state: nothing discovered, queued, running or done. -/
def pipeInit : PipeState := ⟨0, 0, 0, false, 0⟩

/-- States an execution of the pipeline can reach. -/
def PipeReachable (M W : Nat) : PipeState → Prop :=
  Relation.ReflTransGen (PipeStep M W) pipeInit

theorem pipe_produce_all (M W : Nat) :
    ∀ i, i ≤ M → PipeReachable M W ⟨i, i, 0, false, 0⟩ := by
  intro i
  induction i with
  | zero => intro _; exact Relation.ReflTransGen.refl
  | succ n ih =>
    intro h
    have hn : n ≤ M := Nat.le_of_succ_le h
    exact Relation.ReflTransGen.tail (ih hn)
      (PipeStep.produce ⟨n, n, 0, false, 0⟩ (Nat.lt_of_succ_le h))

theorem resultLoop_spec : ∀ (es : List ReportEntry) (fm fu : Bool),
    resultLoop es fm fu =
      if es.any (fun e => decide (e.status = .VerificationError)) then
        .error .FailedEntriesFound
      else if fm || es.any (fun e => decide (e.status = .Missing)) then
        .error .MissingEntriesFound
      else if fu || es.any (fun e => decide (e.status = .Unknown)) then
        .error .UnknownEntriesFound
      else .ok () := by
  intro es
  induction es with
  | nil => intro fm fu; simp [resultLoop]
  | cons e rest ih =>
    intro fm fu
    cases hst : e.status
    case Ok =>
      rw [resultLoop, hst]
      show resultLoop rest fm fu = _
      rw [ih fm fu]
      simp [List.any_cons, hst]
    case VerificationError =>
      rw [resultLoop, hst]
      show Except.error RErr.FailedEntriesFound = _
      simp [List.any_cons, hst]
    case Missing =>
      rw [resultLoop, hst]
      show resultLoop rest true fu = _
      rw [ih true fu]
      simp [List.any_cons, hst]
    case Unknown =>
      rw [resultLoop, hst]
      show resultLoop rest fm true = _
      rw [ih fm true]
      simp [List.any_cons, hst]

/-- C6: for every report, `result()` yields the mismatch outcome
(`FailedEntriesFound`) if any entry has status `VerificationError`; otherwise
the missing outcome (`MissingEntriesFound`) if any entry is `Missing`;
otherwise the unknown outcome (`UnknownEntriesFound`) if any entry is
`Unknown`; otherwise success — exactly in that priority order. -/
theorem c6_result_priority (entries : List ReportEntry) :
    reportResult entries =
      if entries.any (fun e => decide (e.status = .VerificationError)) then
        .error .FailedEntriesFound
      else if entries.any (fun e => decide (e.status = .Missing)) then
        .error .MissingEntriesFound
      else if entries.any (fun e => decide (e.status = .Unknown)) then
        .error .UnknownEntriesFound
      else .ok () := by
  rw [reportResult, resultLoop_spec]
  simp

/-- Modelled from the spec (section 4.4): per-entry verification
classification — not-found is `Missing` with zero processed size, a digest
mismatch is `VerificationError`, a match is `Ok`.  Total only on filesystems
without other I/O errors; the `ioError` arm is never reached under that
hypothesis and is given the `Missing` shape as an arbitrary placeholder. -/
def specClassifyEntry (hashFn : List Nat → Digest) (fs : FileSys)
    (e : Entry) : ReportEntry :=
  match fs e.path with
  | .notFound => ⟨e.path, 0, .Missing⟩
  | .ioError => ⟨e.path, 0, .Missing⟩
  | .found c =>
    ⟨e.path, c.length, if hashFn c = e.hash then .Ok else .VerificationError⟩

theorem verificationPass_error_of_mem {hashFn : List Nat → Digest}
    {fs : FileSys} {e : Entry} :
    ∀ {es : List Entry}, e ∈ es → fs e.path = .ioError →
    verificationPass hashFn fs es = .error .other := by
  intro es
  induction es with
  | nil => intro h; simp at h
  | cons x rest ih =>
    intro hmem hfs
    rcases List.mem_cons.mp hmem with heq | hmem'
    · subst heq
      simp [verificationPass, Entry.verify, hashFile, hfs]
    · cases hx : fs x.path
      · simp only [verificationPass, Entry.verify, hashFile, hx]
        rw [ih hmem' hfs]
      · simp only [verificationPass, Entry.verify, hashFile, hx]
        rw [ih hmem' hfs]
      · simp [verificationPass, Entry.verify, hashFile, hx]

theorem verificationPass_ok_of_no_ioError {hashFn : List Nat → Digest}
    {fs : FileSys} :
    ∀ {es : List Entry}, (∀ x ∈ es, fs x.path ≠ .ioError) →
    verificationPass hashFn fs es = .ok (es.map (specClassifyEntry hashFn fs)) := by
  intro es
  induction es with
  | nil => intro _; rfl
  | cons x rest ih =>
    intro h
    have hx : fs x.path ≠ .ioError := h x (List.mem_cons_self _ _)
    have hrest := ih (fun y hy => h y (List.mem_cons_of_mem _ hy))
    cases hfs : fs x.path
    · simp [verificationPass, Entry.verify, hashFile, hfs, hrest,
        specClassifyEntry]
    · simp [verificationPass, Entry.verify, hashFile, hfs, hrest,
        specClassifyEntry]
    · exact absurd hfs hx

/-- C5: `Entry::verify` reports a not-found file as `Missing` with zero
processed size; any other hashing I/O error is propagated and aborts the
whole verification pass; a digest mismatch is `VerificationError`, a match is
`Ok`; and when no entry hits a non-not-found I/O error the pass completes,
classifying every entry (not-found entries do not abort it). -/
theorem c5_verify_classification (hashFn : List Nat → Digest) (fs : FileSys)
    (e : Entry) (es : List Entry) :
    (fs e.path = .notFound →
      Entry.verify hashFn fs e = .ok ⟨e.path, 0, .Missing⟩) ∧
    (fs e.path = .ioError → Entry.verify hashFn fs e = .error .other) ∧
    (∀ c, fs e.path = .found c → hashFn c ≠ e.hash →
      Entry.verify hashFn fs e = .ok ⟨e.path, c.length, .VerificationError⟩) ∧
    (∀ c, fs e.path = .found c → hashFn c = e.hash →
      Entry.verify hashFn fs e = .ok ⟨e.path, c.length, .Ok⟩) ∧
    (e ∈ es → fs e.path = .ioError →
      verificationPass hashFn fs es = .error .other) ∧
    ((∀ x ∈ es, fs x.path ≠ .ioError) →
      verificationPass hashFn fs es =
        .ok (es.map (specClassifyEntry hashFn fs))) := by
  refine ⟨?_, ?_, ?_, ?_, ?_, ?_⟩
  · intro h
    simp [Entry.verify, hashFile, h]
  · intro h
    simp [Entry.verify, hashFile, h]
  · intro c h hne
    simp [Entry.verify, hashFile, h, hne]
  · intro c h heq
    simp [Entry.verify, hashFile, h, heq]
  · intro hmem hfs
    exact verificationPass_error_of_mem hmem hfs
  · intro h
    exact verificationPass_ok_of_no_ioError h

/-- Witness for the C5 classification theorem at concrete inputs: a missing
file, an unreadable file (aborting the pass), a mismatching file and a
matching file. -/
theorem c5_verify_classification_witness :
    (Entry.verify (fun c => c) (fun _ => .notFound) ⟨[1], ['m']⟩ =
      .ok ⟨['m'], 0, .Missing⟩) ∧
    (Entry.verify (fun c => c) (fun _ => .ioError) ⟨[1], ['m']⟩ =
      .error .other) ∧
    (Entry.verify (fun c => c) (fun _ => .found [2]) ⟨[1], ['m']⟩ =
      .ok ⟨['m'], 1, .VerificationError⟩) ∧
    (Entry.verify (fun c => c) (fun _ => .found [1]) ⟨[1], ['m']⟩ =
      .ok ⟨['m'], 1, .Ok⟩) ∧
    (verificationPass (fun c => c) (fun _ => .ioError) [⟨[1], ['m']⟩] =
      .error .other) ∧
    (verificationPass (fun c => c) (fun _ => .notFound) [⟨[1], ['m']⟩] =
      .ok [⟨['m'], 0, .Missing⟩]) :=
  ⟨(c5_verify_classification (fun c => c) (fun _ => .notFound)
      ⟨[1], ['m']⟩ []).1 rfl,
   (c5_verify_classification (fun c => c) (fun _ => .ioError)
      ⟨[1], ['m']⟩ []).2.1 rfl,
   (c5_verify_classification (fun c => c) (fun _ => .found [2])
      ⟨[1], ['m']⟩ []).2.2.1 [2] rfl (by decide),
   (c5_verify_classification (fun c => c) (fun _ => .found [1])
      ⟨[1], ['m']⟩ []).2.2.2.1 [1] rfl rfl,
   (c5_verify_classification (fun c => c) (fun _ => .ioError)
      ⟨[1], ['m']⟩ [⟨[1], ['m']⟩]).2.2.2.2.1 (List.mem_cons_self _ _) rfl,
   (c5_verify_classification (fun c => c) (fun _ => .notFound)
      ⟨[1], ['m']⟩ [⟨[1], ['m']⟩]).2.2.2.2.2 (fun x _ => by decide)⟩

/-- C9: with `allow_existing = true` the target file is opened without
truncation, so writing over a longer pre-existing file leaves the old
trailing bytes in place: the result is the new serialization followed by the
surviving suffix of the old contents, and is not the serialization alone. -/
theorem c9_write_keeps_stale_suffix (entries : Entries) (old : List Char)
    (h : (serializeEntries entries).length < old.length) :
    write_signature_file true entries (some old) =
      .ok (serializeEntries entries ++
        old.drop (serializeEntries entries).length) ∧
    write_signature_file true entries (some old) ≠
      .ok (serializeEntries entries) := by
  constructor
  · rfl
  · intro heq
    have heq' : serializeEntries entries ++
        old.drop (serializeEntries entries).length = serializeEntries entries :=
      Except.ok.inj heq
    have hlen := congrArg List.length heq'
    simp only [List.length_append, List.length_drop] at hlen
    omega

/-- Witness for the stale-suffix theorem: an empty catalog written over a
one-byte file leaves that byte in place. -/
theorem c9_write_keeps_stale_suffix_witness :
    write_signature_file true ([] : Entries) (some ['x']) =
      .ok (serializeEntries [] ++ (['x'] : List Char).drop
        (serializeEntries []).length) ∧
    write_signature_file true ([] : Entries) (some ['x']) ≠
      .ok (serializeEntries []) :=
  c9_write_keeps_stale_suffix [] ['x'] (by decide)

theorem nodup_entryKeys_of_sorted {m : Entries} (hs : SortedKeys m) :
    (entryKeys m).Nodup := by
  rw [entryKeys]
  have : List.Pairwise (fun a b : PathC => a ≠ b) (m.map Prod.fst) := by
    rw [List.pairwise_map]
    exact hs.imp (fun h => ltChars_ne h)
  exact this

/-- C10: `update_entry` is an upsert and `remove_entry` is total. -/
theorem c10_upsert_and_total_remove (m : Entries) (p : PathC) (d : Digest)
    (hs : SortedKeys m) (habs : p ∉ entryKeys m) :
    lookupE p (updateEntry m p d) = some d ∧
    (∀ q, q ≠ p → lookupE q (updateEntry m p d) = lookupE q m) ∧
    removeEntry p m = m ∧
    (entryKeys (updateEntry m p d)).Nodup ∧
    (entryKeys (removeEntry p m)).Nodup := by
  refine ⟨lookupE_insert_self p d m, ?_, removeEntry_not_mem habs, ?_, ?_⟩
  · intro q hq
    exact lookupE_insert_ne hq d m
  · exact nodup_entryKeys_of_sorted (insertEntry_sorted hs p d)
  · exact nodup_entryKeys_of_sorted (removeEntry_sorted hs p)

/-- Witness for the upsert theorem: a fresh path is inserted into a singleton
catalog and an absent path is removed without effect. -/
theorem c10_upsert_and_total_remove_witness :
    lookupE ['b'] (updateEntry [(['a'], [1])] ['b'] [2]) = some [2] ∧
    (∀ q, q ≠ ['b'] →
      lookupE q (updateEntry [(['a'], [1])] ['b'] [2]) =
        lookupE q [(['a'], [1])]) ∧
    removeEntry ['b'] [(['a'], [1])] = [(['a'], [1])] ∧
    (entryKeys (updateEntry [(['a'], [1])] ['b'] [2])).Nodup ∧
    (entryKeys (removeEntry ['b'] [(['a'], [1])])).Nodup :=
  c10_upsert_and_total_remove [(['a'], [1])] ['b'] [2]
    (by simp [SortedKeys]) (by decide)

/-- C3 (amended): writing a catalog to a fresh file (the
`allow_existing = false` path taken by `sign` on a fresh target, where
`create_new(true)` creates the file) and reloading it yields the identical
path-to-digest map, for every non-empty well-formed entry map of byte-string
digests whose paths contain no newline and do not end with a carriage
return. -/
theorem c3_write_load_roundtrip (l : Entries)
    (_hne : l ≠ []) (hs : SortedKeys l)
    (hpath : ∀ f ∈ l, '\n' ∉ f.1 ∧ f.1.getLast? ≠ some '\r')
    (hbytes : ∀ f ∈ l, ∀ b ∈ f.2, b < 256) :
    write_signature_file false l none = .ok (serializeEntries l) ∧
    loadEntries (serializeEntries l) = .ok l :=
  ⟨rfl, loadEntries_serializeEntries hs hpath hbytes⟩

/-- C3 counterexample: the singleton map binding the path `a\nb` (a legal
relative path on Unix) is non-empty and duplicate-free, yet writing it and
reloading fails with a syntax error on line 2 instead of returning the map:
the embedded newline splits the manifest line in two. -/
theorem c3_write_load_roundtrip_cex :
    ([(['a', '\n', 'b'], [0])] : Entries) ≠ [] ∧
    SortedKeys [(['a', '\n', 'b'], [0])] ∧
    write_signature_file false [(['a', '\n', 'b'], [0])] none =
      .ok (serializeEntries [(['a', '\n', 'b'], [0])]) ∧
    loadEntries (serializeEntries [(['a', '\n', 'b'], [0])]) =
      .error (.malformedLine 2) ∧
    loadEntries (serializeEntries [(['a', '\n', 'b'], [0])]) ≠
      .ok [(['a', '\n', 'b'], [0])] := by
  refine ⟨by decide, ?_, rfl, rfl, ?_⟩
  · simp [SortedKeys]
  · intro h
    rw [show loadEntries (serializeEntries [(['a', '\n', 'b'], [0])]) =
      .error (.malformedLine 2) from rfl] at h
    exact Except.noConfusion h

/-- Witness for the round-trip theorem: a one-entry catalog with path `a`
and digest `0x07` survives the write/load cycle. -/
theorem c3_write_load_roundtrip_witness :
    write_signature_file false [(['a'], [7])] none =
      .ok (serializeEntries [(['a'], [7])]) ∧
    loadEntries (serializeEntries [(['a'], [7])]) = .ok [(['a'], [7])] :=
  c3_write_load_roundtrip [(['a'], [7])] (by decide)
    (by simp [SortedKeys]) (by decide) (by decide)

/-- Modelled from the spec (sections 4.3 and 7): the first problem a manifest
scan encounters — a line without the ` *` separator or with an undecodable
hex digest (reported with its line number), or a path repeated on a later
line (reported with the path). -/
def specFirstLoadProblem : List (Nat × List Char) → List PathC → Option LoadError
  | [], _ => none
  | (n, l) :: rest, seen =>
    match splitOnceStar l with
    | none => some (.malformedLine n)
    | some (hashPart, pathPart) =>
      match hexDecode hashPart with
      | none => some (.invalidHash n)
      | some _ =>
        if pathPart ∈ seen then some (.duplicateEntry pathPart)
        else specFirstLoadProblem rest (pathPart :: seen)

theorem loadEntriesAux_firstProblem :
    ∀ (nl : List (Nat × List Char)) (acc : Entries) (seen : List PathC),
    SortedKeys acc → (∀ p, (lookupE p acc).isSome ↔ p ∈ seen) →
    (∀ err, specFirstLoadProblem nl seen = some err →
      loadEntriesAux nl acc = .error err) ∧
    (specFirstLoadProblem nl seen = none →
      ∃ m, loadEntriesAux nl acc = .ok m) := by
  intro nl
  induction nl with
  | nil =>
    intro acc seen _ _
    constructor
    · intro err herr
      exact Option.noConfusion herr
    · intro _
      exact ⟨acc, rfl⟩
  | cons hd rest ih =>
    intro acc seen hsorted hiff
    obtain ⟨n, s⟩ := hd
    cases hsplit : splitOnceStar s with
    | none =>
      constructor
      · intro err herr
        simp only [specFirstLoadProblem, hsplit, Option.some.injEq] at herr
        simp [loadEntriesAux, hsplit, herr]
      · intro hnone
        simp [specFirstLoadProblem, hsplit] at hnone
    | some pq =>
      obtain ⟨hashPart, pathPart⟩ := pq
      cases hdec : hexDecode hashPart with
      | none =>
        constructor
        · intro err herr
          simp only [specFirstLoadProblem, hsplit, hdec, Option.some.injEq] at herr
          simp [loadEntriesAux, hsplit, hdec, herr]
        · intro hnone
          simp [specFirstLoadProblem, hsplit, hdec] at hnone
      | some d =>
        have hprev : (insertEntry pathPart d acc).1 = lookupE pathPart acc :=
          insertEntry_fst_eq_lookupE hsorted pathPart d
        by_cases hmem : pathPart ∈ seen
        · have hsome : (lookupE pathPart acc).isSome := (hiff pathPart).mpr hmem
          obtain ⟨v, hv⟩ := Option.isSome_iff_exists.mp hsome
          constructor
          · intro err herr
            simp only [specFirstLoadProblem, hsplit, hdec, if_pos hmem,
              Option.some.injEq] at herr
            simp [loadEntriesAux, hsplit, hdec, hprev, hv, herr]
          · intro hnone
            simp [specFirstLoadProblem, hsplit, hdec, hmem] at hnone
        · have hnone' : lookupE pathPart acc = none := by
            cases hl : lookupE pathPart acc with
            | none => rfl
            | some v =>
              exact absurd ((hiff pathPart).mp (by simp [hl])) hmem
          have hsorted' : SortedKeys (insertEntry pathPart d acc).2 :=
            insertEntry_sorted hsorted pathPart d
          have hiff' : ∀ p, (lookupE p (insertEntry pathPart d acc).2).isSome ↔
              p ∈ pathPart :: seen := by
            intro p
            by_cases hp : p = pathPart
            · subst hp
              simp [lookupE_insert_self]
            · rw [lookupE_insert_ne hp]
              simp only [List.mem_cons]
              constructor
              · intro h; exact Or.inr ((hiff p).mp h)
              · intro h
                rcases h with h | h
                · exact absurd h hp
                · exact (hiff p).mpr h
          have hrec := ih (insertEntry pathPart d acc).2 (pathPart :: seen)
            hsorted' hiff'
          constructor
          · intro err herr
            simp only [specFirstLoadProblem, hsplit, hdec, if_neg hmem] at herr
            have := hrec.1 err herr
            simp only [loadEntriesAux, hsplit, hdec, hprev, hnone']
            exact this
          · intro hn
            simp only [specFirstLoadProblem, hsplit, hdec, if_neg hmem] at hn
            obtain ⟨m, hm⟩ := hrec.2 hn
            refine ⟨m, ?_⟩
            simp only [loadEntriesAux, hsplit, hdec, hprev, hnone']
            exact hm

/-- C7: manifest loading fails — returning no catalog — whenever any line
lacks the ` *` separator or carries an undecodable hex digest (with a parse
error naming the first offending line's number), or a relative path occurs on
more than one line (with a duplicate-entry error naming that path); when no
such problem exists the load succeeds. -/
theorem c7_load_parse_errors (file : List Char) :
    (∀ err, specFirstLoadProblem (numberedLines file) [] = some err →
      loadEntries file = .error err) ∧
    (specFirstLoadProblem (numberedLines file) [] = none →
      ∃ m, loadEntries file = .ok m) :=
  loadEntriesAux_firstProblem (numberedLines file) [] []
    (by simp [SortedKeys]) (fun p => by simp [lookupE])

/-- Witness for the manifest-error theorem: a manifest whose first line has
an undecodable digest fails with an invalid-hash error on line 1; a manifest
whose line repeats a path fails with a duplicate-entry error naming it; a
clean manifest loads. -/
theorem c7_load_parse_errors_witness :
    loadEntries ['z', 'z', ' ', '*', 'a', '\n'] = .error (.invalidHash 1) ∧
    loadEntries ['0', '0', ' ', '*', 'a', '\n', '0', '0', ' ', '*', 'a', '\n'] =
      .error (.duplicateEntry ['a']) ∧
    ∃ m, loadEntries ['0', '0', ' ', '*', 'a', '\n'] = .ok m :=
  ⟨(c7_load_parse_errors ['z', 'z', ' ', '*', 'a', '\n']).1 _ rfl,
   (c7_load_parse_errors
      ['0', '0', ' ', '*', 'a', '\n', '0', '0', ' ', '*', 'a', '\n']).1 _ rfl,
   (c7_load_parse_errors ['0', '0', ' ', '*', 'a', '\n']).2 rfl⟩

theorem newList_keys_spec {hashFn : List Nat → Digest} {sigPath : PathC}
    {walkFiles : WalkFiles} {old : Entries} {q : PathC}
    (h : q ∈ ((populateNewItems sigPath walkFiles old).map
      (fun f => (f.1, hashFn f.2))).map Prod.fst) :
    q ≠ sigPath ∧ lookupE q old = none := by
  simp only [List.map_map, List.mem_map] at h
  obtain ⟨item, hitem, heq⟩ := h
  simp only [populateNewItems, List.mem_filter] at hitem
  obtain ⟨⟨hwf, hsig⟩, hnone⟩ := hitem
  constructor
  · rw [← heq]
    simpa using hsig
  · rw [← heq]
    exact Option.isNone_iff_eq_none.mp hnone

theorem mem_foldlUpdate_keys :
    ∀ (l : List (PathC × Digest)) (m : Entries) (f : PathC × Digest),
    f ∈ l.foldl (fun acc g => updateEntry acc g.1 g.2) m →
    f.1 ∈ entryKeys m ∨ f.1 ∈ l.map Prod.fst := by
  intro l
  induction l with
  | nil =>
    intro m f h
    exact Or.inl (List.mem_map_of_mem Prod.fst h)
  | cons g rest ih =>
    intro m f h
    rw [List.foldl_cons] at h
    rcases ih _ f h with hk | hk
    · have := entryKeys_insert_subset g.1 g.2 m hk
      rcases List.mem_cons.mp this with heq | hmem
      · exact Or.inr (by simp [heq])
      · exact Or.inl hmem
    · exact Or.inr (List.mem_cons_of_mem _ hk)

/-- C4: populate is non-destructive and idempotent — every path already in
the entry map keeps exactly its prior digest (only paths absent from the
pre-pass snapshot are hashed at all), and re-running populate over the
unchanged tree leaves the map identical. -/
theorem c4_populate_nondestructive_idempotent (hashFn : List Nat → Digest)
    (sigPath : PathC) (walkFiles : WalkFiles) (old : Entries) :
    (∀ p, (lookupE p old).isSome →
      lookupE p (populateEntries hashFn sigPath walkFiles old) =
        lookupE p old) ∧
    populateEntries hashFn sigPath walkFiles
        (populateEntries hashFn sigPath walkFiles old) =
      populateEntries hashFn sigPath walkFiles old := by
  have hpreserve : ∀ p, (lookupE p old).isSome →
      lookupE p (populateEntries hashFn sigPath walkFiles old) =
        lookupE p old := by
    intro p hp
    by_cases hold : old.isEmpty
    · rw [List.isEmpty_iff.mp hold] at hp
      simp [lookupE] at hp
    · simp only [populateEntries, if_neg hold]
      apply lookupE_foldlUpdate_of_ne
      intro f hf
      rcases mem_foldlUpdate_keys _ _ f hf with hk | hk
      · simp [entryKeys] at hk
      · intro heq
        have hnone := (newList_keys_spec hk).2
        rw [← heq] at hp
        rw [hnone] at hp
        simp at hp
  refine ⟨hpreserve, ?_⟩
  have hnew_empty : populateNewItems sigPath walkFiles
      (populateEntries hashFn sigPath walkFiles old) = [] := by
    unfold populateNewItems
    rw [List.filter_eq_nil_iff]
    intro f hf
    simp only [List.mem_filter] at hf
    obtain ⟨hwf, hsig⟩ := hf
    simp only [Bool.not_eq_true, Option.isNone_iff_eq_none]
    intro hcontr
    have hsome : (lookupE f.1
        (populateEntries hashFn sigPath walkFiles old)).isSome := by
      cases hl : (lookupE f.1 old) with
      | some v =>
        rw [hpreserve f.1 (by simp [hl]), hl]
        rfl
      | none =>
        have hmemnew : f.1 ∈ ((populateNewItems sigPath walkFiles old).map
            (fun g => (g.1, hashFn g.2))).map Prod.fst := by
          simp only [List.map_map, List.mem_map]
          refine ⟨f, ?_, rfl⟩
          simp only [populateNewItems, List.mem_filter]
          exact ⟨⟨hwf, hsig⟩, by simp [hl]⟩
        by_cases hold : old.isEmpty
        · simp only [populateEntries, if_pos hold]
          exact lookupE_foldlUpdate_isSome_of_mem _ _ hmemnew
        · simp only [populateEntries, if_neg hold]
          have hsomeNew := lookupE_foldlUpdate_isSome_of_mem
            ((populateNewItems sigPath walkFiles old).map
              (fun g => (g.1, hashFn g.2))) [] hmemnew
          have hmemKeys := mem_keys_of_lookupE_isSome hsomeNew
          exact lookupE_foldlUpdate_isSome_of_mem _ old
            (by simpa [entryKeys] using hmemKeys)
    rw [hcontr] at hsome
    simp at hsome
  have hnonew : ∀ (m : Entries), populateNewItems sigPath walkFiles m = [] →
      populateEntries hashFn sigPath walkFiles m = m := by
    intro m h
    simp only [populateEntries, h, List.map_nil, List.foldl_nil]
    by_cases hm : m.isEmpty
    · rw [if_pos hm, List.isEmpty_iff.mp hm]
    · rw [if_neg hm]
  exact hnonew _ hnew_empty

/-- Witness for the populate theorem: a known path keeps its digest when
populate adds a newly discovered file. -/
theorem c4_populate_witness :
    lookupE ['a'] (populateEntries (fun c => c) ['s']
      [(['a'], [2]), (['b'], [3])] [(['a'], [1])]) =
      lookupE ['a'] [(['a'], [1])] ∧
    populateEntries (fun c => c) ['s'] [(['a'], [2]), (['b'], [3])]
        (populateEntries (fun c => c) ['s'] [(['a'], [2]), (['b'], [3])]
          [(['a'], [1])]) =
      populateEntries (fun c => c) ['s'] [(['a'], [2]), (['b'], [3])]
        [(['a'], [1])] :=
  ⟨(c4_populate_nondestructive_idempotent (fun c => c) ['s']
      [(['a'], [2]), (['b'], [3])] [(['a'], [1])]).1 ['a'] (by decide),
   (c4_populate_nondestructive_idempotent (fun c => c) ['s']
      [(['a'], [2]), (['b'], [3])] [(['a'], [1])]).2⟩


theorem Entry.verify_status_not_unknown {hashFn : List Nat → Digest}
    {fs : FileSys} {e : Entry} {r : ReportEntry}
    (h : Entry.verify hashFn fs e = .ok r) : r.status ≠ .Unknown := by
  unfold Entry.verify hashFile at h
  cases hfs : fs e.path with
  | found c =>
    rw [hfs] at h
    simp only [Except.ok.injEq] at h
    rw [← h]
    by_cases hh : hashFn c = e.hash <;> simp [hh]
  | notFound =>
    rw [hfs] at h
    simp only [Except.ok.injEq] at h
    rw [← h]
    simp
  | ioError =>
    rw [hfs] at h
    exact Except.noConfusion h

theorem verificationPass_ok_mem {hashFn : List Nat → Digest} {fs : FileSys} :
    ∀ {es : List Entry} {rs : List ReportEntry},
    verificationPass hashFn fs es = .ok rs →
    ∀ r ∈ rs, ∃ e, Entry.verify hashFn fs e = .ok r := by
  intro es
  induction es with
  | nil =>
    intro rs h r hr
    simp only [verificationPass, Except.ok.injEq] at h
    rw [← h] at hr
    simp at hr
  | cons x rest ih =>
    intro rs h r hr
    unfold verificationPass at h
    cases hx : Entry.verify hashFn fs x <;> rw [hx] at h
    · exact Except.noConfusion h
    · cases hrest : verificationPass hashFn fs rest <;> rw [hrest] at h
      · exact Except.noConfusion h
      · simp only [Except.ok.injEq] at h
        rw [← h] at hr
        rcases List.mem_cons.mp hr with heq | hmem
        · exact ⟨x, by rw [hx, heq]⟩
        · exact ih hrest r hmem

/-- C8: manifest self-exclusion — populate leaves the signature-file path's
binding exactly as it was (the walk filter drops the signature file, so it is
never inserted; from a catalog without it, it stays absent), and in a
verification report the Unknown entries never carry the signature-file path
(it is removed from the live path set before the set-difference). -/
theorem c8_manifest_self_exclusion (hashFn : List Nat → Digest) (fs : FileSys)
    (sigPath rootPath : PathC) (walkFiles : WalkFiles)
    (old catalog : Entries) (allPaths : List PathC)
    (rep : List ReportEntry) :
    lookupE sigPath (populateEntries hashFn sigPath walkFiles old) =
      lookupE sigPath old ∧
    (loadAndVerifyReport hashFn fs catalog allPaths sigPath rootPath =
        .ok rep →
      ∀ e ∈ rep, e.status = .Unknown → e.path ≠ sigPath) := by
  constructor
  · have hkeys : ∀ f ∈ (populateNewItems sigPath walkFiles old).map
        (fun g => (g.1, hashFn g.2)), f.1 ≠ sigPath := by
      intro f hf
      exact (newList_keys_spec (List.mem_map_of_mem Prod.fst hf)).1
    by_cases hold : old.isEmpty
    · simp only [populateEntries, if_pos hold]
      rw [lookupE_foldlUpdate_of_ne _ _ hkeys, List.isEmpty_iff.mp hold]
    · simp only [populateEntries, if_neg hold]
      apply lookupE_foldlUpdate_of_ne
      intro f hf
      rcases mem_foldlUpdate_keys _ _ f hf with hk | hk
      · simp [entryKeys] at hk
      · rcases List.mem_map.mp hk with ⟨g, hg, hgeq⟩
        rw [← hgeq]
        exact hkeys g hg
  · intro hok e hmem hstatus
    unfold loadAndVerifyReport at hok
    cases hpass : verificationPass hashFn fs (catalogEntriesList catalog) <;>
      rw [hpass] at hok
    · exact Except.noConfusion hok
    · simp only [Except.ok.injEq] at hok
      rw [← hok] at hmem
      unfold updateUnknown at hmem
      rcases List.mem_append.mp hmem with hpre | happ
      · obtain ⟨en, hen⟩ := verificationPass_ok_mem hpass e hpre
        exact absurd hstatus (Entry.verify_status_not_unknown hen)
      · simp only [List.mem_map] at happ
        obtain ⟨p, hp, heq⟩ := happ
        have hp3 := (List.mem_filter.mp
          (List.mem_of_mem_filter (List.mem_of_mem_filter hp))).2
        rw [← heq]
        simpa using hp3

/-- Witness for the self-exclusion theorem: populate over a walk containing
the signature file leaves it out of the catalog, and a concrete verification
report carries the unknown path `u`, never the signature path `s`. -/
theorem c8_manifest_self_exclusion_witness :
    lookupE ['s'] (populateEntries (fun c => c) ['s']
      [(['s'], [1]), (['b'], [2])] []) = lookupE ['s'] [] ∧
    (⟨['u'], 0, EntryStatus.Unknown⟩ : ReportEntry).path ≠ ['s'] :=
  ⟨(c8_manifest_self_exclusion (fun c => c) (fun _ => .found [1]) ['s'] ['r']
      [(['s'], [1]), (['b'], [2])] [] [(['a'], [1])] [['a'], ['s'], ['u']]
      [⟨['a'], 1, .Ok⟩, ⟨['u'], 0, .Unknown⟩]).1,
   (c8_manifest_self_exclusion (fun c => c) (fun _ => .found [1]) ['s'] ['r']
      [(['s'], [1]), (['b'], [2])] [] [(['a'], [1])] [['a'], ['s'], ['u']]
      [⟨['a'], 1, .Ok⟩, ⟨['u'], 0, .Unknown⟩]).2 rfl
     ⟨['u'], 0, .Unknown⟩ (by decide) rfl⟩

/-- C2 counterexample: instantiating the claimed bound with N = 2 and W = 1,
a pipeline run over M = 5 items whose handler blocks until signaled can reach
a state where all 5 items have been enumerated and sent while the signal is
still down — the entries channel is unbounded, so the producer never blocks,
and no bound of N + W items holds before the first handler is unblocked. -/
theorem c2_backpressure_cex :
    ¬ (∀ s : PipeState, PipeReachable 5 1 s → s.signaled = false →
        s.produced ≤ 2 + 1) := by
  intro h
  have hre : PipeReachable 5 1 ⟨5, 5, 0, false, 0⟩ :=
    pipe_produce_all 5 1 5 (le_refl 5)
  have hb := h ⟨5, 5, 0, false, 0⟩ hre rfl
  simp only [show (⟨5, 5, 0, false, 0⟩ : PipeState).produced = 5 from rfl] at hb
  omega

/-- C2 (amended): the queue between the discovery producer and the workers is
unbounded (`crossbeam_channel::unbounded`), so the producer never blocks on
send: for every item count M and worker count W there is an execution in
which all M items are enumerated and queued before any handler invocation is
unblocked (signal still down, nothing handled). -/
theorem c2_unbounded_producer (M W : Nat) :
    PipeReachable M W ⟨M, M, 0, false, 0⟩ :=
  pipe_produce_all M W M (le_refl M)

theorem insertSet_mem_self (x : PathC) (s : List PathC) : x ∈ insertSet x s := by
  unfold insertSet
  by_cases h : x ∈ s <;> simp [h]

theorem insertSet_mem_mono {x : PathC} {s : List PathC} (y : PathC)
    (h : x ∈ s) : x ∈ insertSet y s := by
  unfold insertSet
  by_cases hy : y ∈ s <;> simp [hy, h]

theorem insertSet_nodup {s : List PathC} (h : s.Nodup) (x : PathC) :
    (insertSet x s).Nodup := by
  unfold insertSet
  by_cases hx : x ∈ s
  · simp [hx, h]
  · simp [hx, h, List.nodup_append]

theorem addAllNonOk_cons (e : ReportEntry) (rest : List ReportEntry)
    (files : List PathC) :
    addAllNonOk (e :: rest) files =
      addAllNonOk rest
        (if e.status = .Ok then files else insertSet e.path files) := by
  unfold addAllNonOk
  rw [List.foldl_cons]

theorem addAllNonOk_mono {x : PathC} :
    ∀ (report : List ReportEntry) (files : List PathC),
    x ∈ files → x ∈ addAllNonOk report files := by
  intro report
  induction report with
  | nil => intro files h; exact h
  | cons e rest ih =>
    intro files h
    rw [addAllNonOk_cons]
    by_cases he : e.status = .Ok
    · rw [if_pos he]; exact ih files h
    · rw [if_neg he]; exact ih _ (insertSet_mem_mono _ h)

theorem addAllNonOk_mem {e : ReportEntry} :
    ∀ (report : List ReportEntry) (files : List PathC),
    e ∈ report → e.status ≠ .Ok → e.path ∈ addAllNonOk report files := by
  intro report
  induction report with
  | nil => intro files h; simp at h
  | cons x rest ih =>
    intro files hmem hne
    rw [addAllNonOk_cons]
    rcases List.mem_cons.mp hmem with heq | hmem'
    · subst heq
      rw [if_neg hne]
      exact addAllNonOk_mono rest _ (insertSet_mem_self _ _)
    · exact ih _ hmem' hne

theorem addAllNonOk_nodup :
    ∀ (report : List ReportEntry) (files : List PathC),
    files.Nodup → (addAllNonOk report files).Nodup := by
  intro report
  induction report with
  | nil => intro files h; exact h
  | cons e rest ih =>
    intro files h
    rw [addAllNonOk_cons]
    by_cases he : e.status = .Ok
    · rw [if_pos he]; exact ih files h
    · rw [if_neg he]; exact ih _ (insertSet_nodup h _)

theorem addSameDir_nodup (dir : Option PathC) :
    ∀ (report : List ReportEntry) (files : List PathC),
    files.Nodup → (addSameDir report dir files).Nodup := by
  intro report
  induction report with
  | nil => intro files h; exact h
  | cons e rest ih =>
    intro files h
    unfold addSameDir
    rw [List.foldl_cons]
    show (addSameDir rest dir _).Nodup
    by_cases h1 : e.status = .Ok
    · rw [if_pos h1]; exact ih files h
    · rw [if_neg h1]
      by_cases h2 : dir = parentDir e.path
      · rw [if_pos h2]; exact ih _ (insertSet_nodup h _)
      · rw [if_neg h2]; exact ih files h

theorem decisionLoop_files_nodup (report : List ReportEntry)
    (choose : Nat → UpdateAction) :
    ∀ (entries : List ReportEntry) (st : DecisionState),
    st.filesToUpdate.Nodup →
    (decisionLoop report choose entries st).filesToUpdate.Nodup := by
  intro entries
  induction entries with
  | nil => intro st h; exact h
  | cons e rest ih =>
    intro st h
    rw [decisionLoop]
    by_cases h1 : e.status = .Ok
    · rw [if_pos h1]; exact ih st h
    · rw [if_neg h1, if_neg (by simp [skipAllFlag])]
      by_cases h2 : st.updateAll
      · rw [if_pos h2]
        exact ih _ (insertSet_nodup h _)
      · rw [if_neg h2]
        by_cases h3 : dirAlreadyProcessed st.processedDirs e.path
        · rw [if_pos h3]
          exact ih _ (insertSet_nodup h _)
        · rw [if_neg h3]
          cases hc : choose st.promptCount
          · exact ih _ h
          · exact ih _ (insertSet_nodup h _)
          · exact ih _ (addSameDir_nodup _ _ _ (insertSet_nodup h _))
          · exact ih _ (insertSet_nodup h _)

theorem lookupE_remove_ne' {k p : PathC} (hne : p ≠ k) (m : Entries) :
    lookupE p (removeEntry k m) = lookupE p m := by
  rw [lookupE_remove_ne hne]
  cases h : lookupE p m <;> simp

theorem applyUpdates_lookup_preserve {hashFn : List Nat → Digest}
    {fs : FileSys} {p : PathC} :
    ∀ (l : List PathC) (cat final : Entries),
    applyUpdates hashFn fs l cat = .ok final →
    (∀ q ∈ l, q ≠ p) → lookupE p final = lookupE p cat := by
  intro l
  induction l with
  | nil =>
    intro cat final h _
    rw [Except.ok.inj h]
  | cons q rest ih =>
    intro cat final h hq
    have hqp : q ≠ p := hq q (List.mem_cons_self _ _)
    have htail : ∀ x ∈ rest, x ≠ p := fun x hx => hq x (List.mem_cons_of_mem _ hx)
    unfold applyUpdates at h
    cases hfs : fs q <;> rw [hfs] at h
    · rw [ih _ _ h htail]
      exact lookupE_insert_ne (fun he => hqp he.symm) _ cat
    · rw [ih _ _ h htail]
      exact lookupE_remove_ne' (fun he => hqp he.symm) cat
    · exact Except.noConfusion h

theorem applyUpdates_sets_entry {hashFn : List Nat → Digest} {fs : FileSys}
    {c : List Nat} {p : PathC} :
    ∀ (l1 : List PathC) (l2 : List PathC) (cat final : Entries),
    applyUpdates hashFn fs (l1 ++ p :: l2) cat = .ok final →
    p ∉ l2 → fs p = .found c →
    lookupE p final = some (hashFn c) := by
  intro l1
  induction l1 with
  | nil =>
    intro l2 cat final h hnot hfs
    rw [List.nil_append] at h
    unfold applyUpdates at h
    rw [hfs] at h
    have := applyUpdates_lookup_preserve (p := p) l2 _ _ h
      (fun q hq heq => hnot (by rw [← heq]; exact hq))
    rw [this]
    exact lookupE_insert_self p (hashFn c) cat
  | cons q l1' ih =>
    intro l2 cat final h hnot hfs
    rw [List.cons_append] at h
    unfold applyUpdates at h
    cases hq : fs q <;> rw [hq] at h
    · exact ih _ _ _ h hnot hfs
    · exact ih _ _ _ h hnot hfs
    · exact Except.noConfusion h

/-- C1 (amended): after an interactive reconciliation in which the operator's
choices set the global UpdateAll flag and the final confirmation is accepted,
every Unknown report entry whose file still exists on disk is re-hashed and
inserted into the catalog as a new entry (via the upserting `update_entry`):
reconciliation under UpdateAll adopts Unknown paths rather than leaving them
out. -/
theorem c1_updateall_adopts_unknown (hashFn : List Nat → Digest)
    (fs : FileSys) (report : List ReportEntry) (choose : Nat → UpdateAction)
    (catalog final : Entries) (e : ReportEntry) (c : List Nat)
    (he : e ∈ report) (hst : e.status = .Unknown)
    (hfs : fs e.path = .found c)
    (hall : (decisionLoop report choose report ⟨[], false, [], 0⟩).updateAll =
      true)
    (happ : applyUpdates hashFn fs (filesToUpdateInteractive report choose)
      catalog = .ok final) :
    lookupE e.path final = some (hashFn c) := by
  have hmem : e.path ∈ filesToUpdateInteractive report choose := by
    simp only [filesToUpdateInteractive]
    rw [if_pos hall]
    exact addAllNonOk_mem report _ he (by simp [hst])
  have hnodup : (filesToUpdateInteractive report choose).Nodup := by
    simp only [filesToUpdateInteractive]
    by_cases hA :
        (decisionLoop report choose report ⟨[], false, [], 0⟩).updateAll
    · rw [if_pos hA]
      exact addAllNonOk_nodup _ _
        (decisionLoop_files_nodup report choose report _ (by simp))
    · rw [if_neg hA]
      exact decisionLoop_files_nodup report choose report _ (by simp)
  obtain ⟨l1, l2, hsplit⟩ := List.append_of_mem hmem
  have hnot : e.path ∉ l2 := by
    rw [hsplit] at hnodup
    exact (List.nodup_cons.mp (List.Nodup.of_append_right hnodup)).1
  rw [hsplit] at happ
  exact applyUpdates_sets_entry l1 l2 _ _ happ hnot hfs

/-- C1 counterexample: a report with one Ok entry for path `a` and one
Unknown entry for the on-disk path `u`; the operator answers UpdateAll at the
single prompt and confirms.  The path `u` was not a catalog entry before, yet
the applied (and persisted) catalog binds it — reconciliation does adopt the
Unknown path as a new entry. -/
theorem c1_updateall_adopts_unknown_cex :
    lookupE ['u'] [(['a'], [9])] = none ∧
    (⟨['u'], 0, EntryStatus.Unknown⟩ : ReportEntry) ∈
      [(⟨['a'], 3, .Ok⟩ : ReportEntry), ⟨['u'], 0, .Unknown⟩] ∧
    applyUpdates (fun c => c)
      (fun p => if p = ['u'] then .found [7]
        else if p = ['a'] then .found [9] else .notFound)
      (filesToUpdateInteractive
        [(⟨['a'], 3, .Ok⟩ : ReportEntry), ⟨['u'], 0, .Unknown⟩]
        (fun _ => .UpdateAll))
      [(['a'], [9])] = .ok [(['a'], [9]), (['u'], [7])] ∧
    lookupE ['u'] [(['a'], [9]), (['u'], [7])] = some [7] := by
  refine ⟨rfl, by decide, rfl, rfl⟩

/-- Witness for the UpdateAll-adopts-Unknown theorem at the counterexample's
concrete inputs. -/
theorem c1_updateall_adopts_unknown_witness :
    lookupE ['u']
      [(['a'], [9]), (['u'], [7])] = some ((fun c : List Nat => c) [7]) :=
  c1_updateall_adopts_unknown (fun c => c)
    (fun p => if p = ['u'] then .found [7]
      else if p = ['a'] then .found [9] else .notFound)
    [(⟨['a'], 3, .Ok⟩ : ReportEntry), ⟨['u'], 0, .Unknown⟩]
    (fun _ => .UpdateAll) [(['a'], [9])] [(['a'], [9]), (['u'], [7])]
    ⟨['u'], 0, .Unknown⟩ [7] (by decide) rfl rfl rfl rfl
